import Mathlib

/-!
Shallow embedding of the classFlowAI playback-engine, timeline, narration
and geometry modules, together with proofs of the specification claims.

Numbers that TypeScript stores as `number` are modelled as `ℚ` (exact
arithmetic) in the timeline/engine/narration modules, and as `ℝ` in the
geometry module, where `Math.sqrt` forces real arithmetic.
-/

namespace ClassFlow

/-! ### Engine state (src/packages/engine/src/explanation.ts, types from lesson.ts) -/

/-- `EngineStatus = 'idle' | 'loading' | 'ready' | 'playing' | 'paused' | 'error'`. -/
inductive EngineStatus where
  | idle
  | loading
  | ready
  | playing
  | paused
  | error
deriving DecidableEq, Repr

/-- `interface EngineState` from the types package. -/
structure EngineState where
  isPlaying : Bool
  currentTime : ℚ
  duration : ℚ
  playbackRate : ℚ
  status : EngineStatus
deriving DecidableEq, Repr

/-- `const MIN_PLAYBACK_RATE = 0.25`. -/
def MIN_PLAYBACK_RATE : ℚ := 1/4

/-- `const MAX_PLAYBACK_RATE = 4.0`. -/
def MAX_PLAYBACK_RATE : ℚ := 4

/-- `const OVERLAP_TOLERANCE_MS = 1`. -/
def OVERLAP_TOLERANCE_MS : ℚ := 1

/-- `const GAP_WARNING_THRESHOLD_MS = 5000`. -/
def GAP_WARNING_THRESHOLD_MS : ℚ := 5000

/-- `clampTime(value, min, max) = Math.min(Math.max(value, min), max)`. -/
def clampTime (value lo hi : ℚ) : ℚ :=
  min (max value lo) hi

/-- `createInitialEngineState()`. -/
def createInitialEngineState : EngineState :=
  { isPlaying := false
    currentTime := 0
    duration := 0
    playbackRate := 1
    status := .idle }

/-- `advanceEngineState(state, deltaMs)`: advances `currentTime` by
`deltaMs * playbackRate`; no-op copy unless playing; at or past `duration`
the state completes (`currentTime = duration`, stopped, status `ready`);
otherwise the new time is floored at `0` by `Math.max(0, newTime)`. -/
def advanceEngineState (state : EngineState) (deltaMs : ℚ) : EngineState :=
  if ¬(state.isPlaying = true ∧ state.status = .playing) then
    state
  else
    let newTime := state.currentTime + deltaMs * state.playbackRate
    if state.duration ≤ newTime then
      { state with
          currentTime := state.duration
          isPlaying := false
          status := .ready }
    else
      { state with currentTime := max 0 newTime }

/-- `pauseEngine(state)`. -/
def pauseEngine (state : EngineState) : EngineState :=
  if state.isPlaying = false then state
  else { state with isPlaying := false, status := .paused }

/-- `resumeEngine(state)`: only possible from `paused` or `ready`. -/
def resumeEngine (state : EngineState) : EngineState :=
  if state.status ≠ .paused ∧ state.status ≠ .ready then state
  else { state with isPlaying := true, status := .playing }

/-- `seekEngine(state, time)`: sets `currentTime` clamped into `[0, duration]`. -/
def seekEngine (state : EngineState) (time : ℚ) : EngineState :=
  { state with currentTime := clampTime time 0 state.duration }

/-- `setPlaybackRate(state, rate)`: rate clamped into
`[MIN_PLAYBACK_RATE, MAX_PLAYBACK_RATE]`. -/
def setPlaybackRate (state : EngineState) (rate : ℚ) : EngineState :=
  { state with playbackRate := clampTime rate MIN_PLAYBACK_RATE MAX_PLAYBACK_RATE }

/-- `setEngineStatus(state, status)`: sets the status and recomputes
`isPlaying = (status === 'playing')`. -/
def setEngineStatus (state : EngineState) (status : EngineStatus) : EngineState :=
  let isPlaying := status = .playing
  { state with status := status, isPlaying := isPlaying }

/-- `setEngineDuration(state, duration)`: duration floored at `0`; status
moves to `ready` when it was `loading` or `idle`. -/
def setEngineDuration (state : EngineState) (duration : ℚ) : EngineState :=
  let nextStatus : EngineStatus :=
    if state.status = .loading ∨ state.status = .idle then .ready else state.status
  { state with duration := max 0 duration, status := nextStatus }

/-! ### Timeline events, tracks, validation and merging -/

/-- `TimelineEventType` from lesson.ts. -/
inductive TimelineEventType where
  | cursor_move
  | draw_stroke
  | text_highlight
  | narration_segment
  | pause
deriving DecidableEq, Repr

/-- `interface TimelineEvent` from lesson.ts.  The `payload` field is
omitted: none of the verified timeline operations reads it. -/
structure TimelineEvent where
  id : String
  type : TimelineEventType
  startTime : ℚ
  endTime : ℚ
deriving DecidableEq, Repr

/-- The five channel types of `TimelineTrack.type`. -/
inductive TrackType where
  | cursor
  | drawing
  | text
  | narration
  | highlight
deriving DecidableEq, Repr

/-- `interface TimelineTrack`. -/
structure TimelineTrack where
  id : String
  type : TrackType
  events : List TimelineEvent
  locked : Bool
  visible : Bool
deriving DecidableEq, Repr

/-- Severity of a `TimelineValidationError`: `'warning' | 'error'`. -/
inductive Severity where
  | warning
  | error
deriving DecidableEq, Repr

/-- The three message templates `validateTimeline` interpolates, carrying
the interpolated numeric/id data (the decimal formatting of the template
strings is abstracted away). -/
inductive ValidationMessage where
  | nonPositiveDuration (startTime endTime : ℚ)
  | overlapsPrevious (prevId : String) (overlap : ℚ)
  | largeGap (gap : ℚ)
deriving DecidableEq, Repr

/-- `interface TimelineValidationError`. -/
structure TimelineValidationError where
  eventId : String
  message : ValidationMessage
  severity : Severity
deriving DecidableEq, Repr

/-- The ordering computed by the comparator
`(a, b) => a.startTime - b.startTime || a.endTime - b.endTime`:
ascending `startTime`, ties broken by `endTime`. -/
def eventLe (a b : TimelineEvent) : Prop :=
  a.startTime < b.startTime ∨ (a.startTime = b.startTime ∧ a.endTime ≤ b.endTime)

instance : DecidableRel eventLe := fun a b => by
  unfold eventLe; infer_instance

instance : IsTotal TimelineEvent eventLe where
  total a b := by
    unfold eventLe
    rcases lt_trichotomy a.startTime b.startTime with h | h | h
    · exact Or.inl (Or.inl h)
    · rcases le_total a.endTime b.endTime with h2 | h2
      · exact Or.inl (Or.inr ⟨h, h2⟩)
      · exact Or.inr (Or.inr ⟨h.symm, h2⟩)
    · exact Or.inr (Or.inl h)

instance : IsTrans TimelineEvent eventLe where
  trans a b c hab hbc := by
    unfold eventLe at *
    rcases hab with h1 | ⟨h1, h1e⟩ <;> rcases hbc with h2 | ⟨h2, h2e⟩
    · exact Or.inl (h1.trans h2)
    · exact Or.inl (h2 ▸ h1)
    · exact Or.inl (h1 ▸ h2)
    · exact Or.inr ⟨h1.trans h2, h1e.trans h2e⟩

/-- `sortTimelineEvents(events)`: `[...events].sort(comparator)`.
JavaScript `Array.prototype.sort` is a stable sort consistent with the
comparator; it is modelled by a stable sort with respect to `eventLe`. -/
def sortTimelineEvents (events : List TimelineEvent) : List TimelineEvent :=
  List.insertionSort eventLe events

/-- `generateId(prefix)`: the source returns
`prefix + '_' + Date.now() + '_' + randomSuffix`; the impure timestamp and
random suffix are abstracted away, since no verified claim depends on the
generated id value. -/
def generateId (pfx : String) : String :=
  pfx ++ "_id"

/-- First pass of `validateTimeline` over one sorted track: an `error` for
every event with `endTime <= startTime`. -/
def nonPositiveDurationErrors (sorted : List TimelineEvent) : List TimelineValidationError :=
  sorted.filterMap fun e =>
    if e.endTime ≤ e.startTime then
      some { eventId := e.id
             message := .nonPositiveDuration e.startTime e.endTime
             severity := .error }
    else none

/-- Second pass of `validateTimeline` over one sorted track: for each
adjacent pair, an overlap `error` when `prev.endTime - curr.startTime`
exceeds `OVERLAP_TOLERANCE_MS`, then a gap `warning` when
`curr.startTime - prev.endTime` exceeds `GAP_WARNING_THRESHOLD_MS`. -/
def adjacentPairErrors : List TimelineEvent → List TimelineValidationError
  | [] => []
  | [_] => []
  | prev :: curr :: rest =>
      (if OVERLAP_TOLERANCE_MS < prev.endTime - curr.startTime then
        [{ eventId := curr.id
           message := .overlapsPrevious prev.id (prev.endTime - curr.startTime)
           severity := .error }]
       else []) ++
      (if GAP_WARNING_THRESHOLD_MS < curr.startTime - prev.endTime then
        [{ eventId := curr.id
           message := .largeGap (curr.startTime - prev.endTime)
           severity := .warning }]
       else []) ++
      adjacentPairErrors (curr :: rest)

/-- `validateTimeline(tracks)`: per track, sorts the events and collects the
non-positive-duration errors followed by the adjacent-pair errors. -/
def validateTimeline (tracks : List TimelineTrack) : List TimelineValidationError :=
  (tracks.map fun track =>
    let sorted := sortTimelineEvents track.events
    nonPositiveDurationErrors sorted ++ adjacentPairErrors sorted).flatten

/-- `mergeTimelineTracks(a, b)`: throws (modelled as `Except.error`) when the
two tracks have different types; otherwise a fresh-id track with both event
arrays combined and sorted, inheriting `a`'s lock and visibility state.
This `throw` is the only one in the timeline module: every other operation
is embedded as a total function. -/
def mergeTimelineTracks (a b : TimelineTrack) :
    Except String TimelineTrack :=
  if a.type ≠ b.type then
    .error "Cannot merge tracks of different types"
  else
    .ok { id := generateId "trk"
          type := a.type
          events := sortTimelineEvents (a.events ++ b.events)
          locked := a.locked
          visible := a.visible }

/-! ### Narration (src/packages/engine/src/narration.ts) -/

/-- `interface WordTiming`: absolute start/end time of one word plus its
position in the segment. -/
structure WordTiming where
  word : String
  startTime : ℚ
  endTime : ℚ
  index : ℕ
deriving DecidableEq, Repr

/-- `interface NarrationSegmentConfig`. -/
structure NarrationSegmentConfig where
  id : String
  text : String
  startTime : ℚ
  endTime : ℚ
  audioUrl : Option String
  wordTimings : List WordTiming
deriving DecidableEq, Repr

instance : Inhabited NarrationSegmentConfig :=
  ⟨{ id := "", text := "", startTime := 0, endTime := 0, audioUrl := none
     wordTimings := [] }⟩

/-- `const DEFAULT_MERGE_GAP_THRESHOLD = 0.3`. -/
def DEFAULT_MERGE_GAP_THRESHOLD : ℚ := 3/10

/-- Character-level worker for `splitWords`: `acc` holds the characters of
the word currently being read; a whitespace character flushes it (dropping
empty pieces, as the `filter` does), and the end of input flushes the final
word. -/
def splitWordsAux : List Char → List Char → List String
  | [], acc => if acc.isEmpty then [] else [⟨acc⟩]
  | c :: cs, acc =>
      if c.isWhitespace then
        (if acc.isEmpty then [] else [⟨acc⟩]) ++ splitWordsAux cs []
      else
        splitWordsAux cs (acc ++ [c])

/-- `text.split(/\s+/).filter((w) => w.length > 0)`: the non-empty
maximal whitespace-free runs of `text`, obtained by a single pass over its
characters. -/
def splitWords (text : String) : List String :=
  splitWordsAux text.data []

/-- The main loop of `estimateWordTimings`: walks the word list with a
`cursor`, giving each word a share of `totalDuration` proportional to its
character count; the final word ends exactly at `endTime`. -/
def wordTimingsLoop (totalChars : ℕ) (totalDuration endTime : ℚ) :
    ℚ → ℕ → List String → List WordTiming
  | _, _, [] => []
  | cursor, i, [w] => [{ word := w, startTime := cursor, endTime := endTime, index := i }]
  | cursor, i, w :: w2 :: ws =>
      let wordDuration := totalDuration * ((w.length : ℚ) / (totalChars : ℚ))
      { word := w, startTime := cursor, endTime := cursor + wordDuration, index := i } ::
        wordTimingsLoop totalChars totalDuration endTime (cursor + wordDuration) (i + 1)
          (w2 :: ws)

/-- `estimateWordTimings(text, startTime, endTime)`: splits on whitespace
and distributes `[startTime, endTime]` across the words proportionally to
character length; degenerate inputs give every word the zero-length span
`[startTime, startTime]`. -/
def estimateWordTimings (text : String) (startTime endTime : ℚ) : List WordTiming :=
  let words := splitWords text
  if words = [] then []
  else
    let totalChars := (words.map String.length).sum
    let totalDuration := endTime - startTime
    if totalDuration ≤ 0 ∨ totalChars = 0 then
      words.enum.map fun p =>
        { word := p.2, startTime := startTime, endTime := startTime, index := p.1 }
    else
      wordTimingsLoop totalChars totalDuration endTime startTime 0 words

/-- The `wordIndex++` re-indexing inside `collapseGroup`: copies the word
timings, assigning consecutive indices from the given start. -/
def reindexFrom : ℕ → List WordTiming → List WordTiming
  | _, [] => []
  | i, wt :: rest =>
      { word := wt.word, startTime := wt.startTime, endTime := wt.endTime, index := i } ::
        reindexFrom (i + 1) rest

/-- `collapseGroup(group)`: collapses a nonempty group of segments into one
segment with the texts joined by single spaces, the first segment's
`startTime`, the last segment's `endTime`, the first non-null `audioUrl`,
and the word timings concatenated and re-indexed from `0`.  A singleton
group is returned unchanged; the `[]` case is unreachable in the source
(`group[0]!`) and maps to the default segment. -/
def collapseGroup : List NarrationSegmentConfig → NarrationSegmentConfig
  | [] => default
  | [s] => s
  | s :: s2 :: rest =>
      let group := s :: s2 :: rest
      { id := generateId "nar"
        text := " ".intercalate (group.map NarrationSegmentConfig.text)
        startTime := s.startTime
        endTime := (group.getLast (by simp)).endTime
        audioUrl :=
          (group.find? fun seg => seg.audioUrl.isSome).bind NarrationSegmentConfig.audioUrl
        wordTimings :=
          reindexFrom 0 (group.map NarrationSegmentConfig.wordTimings).flatten }

/-- Ascending `startTime`, the order of `(a, b) => a.startTime - b.startTime`. -/
def segLe (a b : NarrationSegmentConfig) : Prop :=
  a.startTime ≤ b.startTime

instance : DecidableRel segLe := fun a b => by
  unfold segLe; infer_instance

instance : IsTotal NarrationSegmentConfig segLe where
  total a b := le_total a.startTime b.startTime

instance : IsTrans NarrationSegmentConfig segLe where
  trans _ _ _ hab hbc := le_trans hab hbc

/-- `[...segments].sort((a, b) => a.startTime - b.startTime)`, modelled as a
stable sort by `startTime`. -/
def sortSegmentsByStart (segments : List NarrationSegmentConfig) :
    List NarrationSegmentConfig :=
  List.insertionSort segLe segments

/-- The grouping loop of `mergeAdjacentSegments`: extends the current group
while the next segment starts within `gapThreshold` of the group's last
segment's end, flushing the collapsed group otherwise.  `group` is nonempty
at every call site, so `getLastD`'s fallback is unreachable. -/
def mergeLoop (gapThreshold : ℚ) :
    List NarrationSegmentConfig → List NarrationSegmentConfig →
      List NarrationSegmentConfig
  | group, [] => [collapseGroup group]
  | group, current :: rest =>
      let prev := group.getLastD current
      if current.startTime - prev.endTime ≤ gapThreshold then
        mergeLoop gapThreshold (group ++ [current]) rest
      else
        collapseGroup group :: mergeLoop gapThreshold [current] rest

/-- `mergeAdjacentSegments(segments, gapThreshold)`: sorts by start time and
collapses maximal runs of segments whose inter-segment gap is at most
`gapThreshold` (the source defaults it to `DEFAULT_MERGE_GAP_THRESHOLD`). -/
def mergeAdjacentSegments (segments : List NarrationSegmentConfig)
    (gapThreshold : ℚ) : List NarrationSegmentConfig :=
  match sortSegmentsByStart segments with
  | [] => []
  | s0 :: rest => mergeLoop gapThreshold [s0] rest

/-! ### Geometry: Bézier curves and strokes (drawing utilities module).
`Math.sqrt` forces real arithmetic, so this module lives over `ℝ` and its
definitions are noncomputable. -/

/-- `interface Point`. -/
@[ext]
structure Point where
  x : ℝ
  y : ℝ

/-- `interface BezierCurve`; the source's `end` field is called `endP`
here because `end` is a reserved word in Lean. -/
structure BezierCurve where
  start : Point
  cp1 : Point
  cp2 : Point
  endP : Point

/-- `interface Stroke` (drawing state); `color`/`width`/`opacity` are
carried but unused by the verified path operations. -/
structure Stroke where
  id : String
  points : List Point
  color : String
  width : ℝ
  opacity : ℝ

/-- The geometry module's `clamp01(value) = Math.min(Math.max(value, 0), 1)`. -/
noncomputable def clamp01 (value : ℝ) : ℝ :=
  min (max value 0) 1

/-- `lerpPoint(a, b, t)`. -/
noncomputable def lerpPoint (a b : Point) (t : ℝ) : Point :=
  { x := a.x + (b.x - a.x) * t, y := a.y + (b.y - a.y) * t }

/-- `distance(a, b) = Math.sqrt(dx*dx + dy*dy)`. -/
noncomputable def distance (a b : Point) : ℝ :=
  Real.sqrt ((b.x - a.x) * (b.x - a.x) + (b.y - a.y) * (b.y - a.y))

/-- `evaluateBezierPoint(curve, t)`: the cubic Bernstein polynomial at
`clamp01(t)`. -/
noncomputable def evaluateBezierPoint (curve : BezierCurve) (t : ℝ) : Point :=
  let ct := clamp01 t
  let u := 1 - ct
  let u2 := u * u
  let u3 := u2 * u
  let ct2 := ct * ct
  let ct3 := ct2 * ct
  { x := u3 * curve.start.x + 3 * u2 * ct * curve.cp1.x + 3 * u * ct2 * curve.cp2.x +
      ct3 * curve.endP.x
    y := u3 * curve.start.y + 3 * u2 * ct * curve.cp1.y + 3 * u * ct2 * curve.cp2.y +
      ct3 * curve.endP.y }

/-- `splitBezierAt(curve, t)`: De Casteljau subdivision at `clamp01(t)`. -/
noncomputable def splitBezierAt (curve : BezierCurve) (t : ℝ) :
    BezierCurve × BezierCurve :=
  let ct := clamp01 t
  let a := lerpPoint curve.start curve.cp1 ct
  let b := lerpPoint curve.cp1 curve.cp2 ct
  let c := lerpPoint curve.cp2 curve.endP ct
  let d := lerpPoint a b ct
  let e := lerpPoint b c ct
  let mid := lerpPoint d e ct
  ({ start := curve.start, cp1 := a, cp2 := d, endP := mid },
   { start := mid, cp1 := e, cp2 := c, endP := curve.endP })

/-- `calculatePathLength(points)`: total polyline arc length (0 for fewer
than two points). -/
noncomputable def calculatePathLength : List Point → ℝ
  | [] => 0
  | [_] => 0
  | a :: b :: rest => distance a b + calculatePathLength (b :: rest)

/-- The accumulation loop of `getStrokeProgress`: walks the remaining
points, keeping `result` (the emitted prefix, ending in `prev`) and the arc
length `accumulated` so far; the segment crossing `target` is cut at the
interpolated boundary point. -/
noncomputable def strokeProgressLoop (target : ℝ) :
    Point → List Point → ℝ → List Point → List Point
  | _, [], _, result => result
  | prev, curr :: rest, accumulated, result =>
      let segLen := distance prev curr
      if target ≤ accumulated + segLen then
        let remaining := target - accumulated
        let t := if segLen = 0 then 0 else remaining / segLen
        result ++ [{ x := prev.x + (curr.x - prev.x) * t
                     y := prev.y + (curr.y - prev.y) * t }]
      else
        strokeProgressLoop target curr rest (accumulated + segLen) (result ++ [curr])

/-- `getStrokeProgress(stroke, progress)`: the sub-path covering the first
`progress` fraction of the stroke's arc length. -/
noncomputable def getStrokeProgress (stroke : Stroke) (progress : ℝ) : List Point :=
  match stroke.points with
  | [] => []
  | p0 :: rest =>
      if progress ≤ 0 then []
      else if 1 ≤ progress then p0 :: rest
      else
        let totalLength := calculatePathLength (p0 :: rest)
        let targetLength := totalLength * clamp01 progress
        strokeProgressLoop targetLength p0 rest 0 [p0]

/-! ### Concrete engine and timeline fixtures used by witnesses and
counterexamples -/

/-- A concrete Bézier curve used by the C8 witness. -/
noncomputable def unitArc : BezierCurve :=
  { start := { x := 0, y := 0 }, cp1 := { x := 0, y := 1 }
    cp2 := { x := 1, y := 1 }, endP := { x := 1, y := 0 } }

/-- A horizontal two-point stroke of length `2`, used by the C9 witness. -/
noncomputable def flatStroke : Stroke :=
  { id := "s", points := [{ x := 0, y := 0 }, { x := 2, y := 0 }]
    color := "black", width := 1, opacity := 1 }

/-- A playing engine state: 10 ms from completion at rate 1. -/
def playingNearEnd : EngineState :=
  { isPlaying := true, currentTime := 0, duration := 10, playbackRate := 1
    status := .playing }

/-- `isPlaying ⇔ status == 'playing'`, the engine-state invariant. -/
def engineInvariant (s : EngineState) : Prop :=
  s.isPlaying = true ↔ s.status = .playing

/-- A narration segment `[0,10]` whose time range strictly contains the
later-starting segment `nestedSegB`. -/
def nestedSegA : NarrationSegmentConfig :=
  { id := "s1", text := "hello", startTime := 0, endTime := 10, audioUrl := none
    wordTimings := [] }

/-- A narration segment `[1,5]`, nested inside `nestedSegA`. -/
def nestedSegB : NarrationSegmentConfig :=
  { id := "s2", text := "world", startTime := 1, endTime := 5, audioUrl := none
    wordTimings := [] }

/-- First witness segment for the amended C6: one word, a non-zero
original word index, no audio. -/
def mergeSegA : NarrationSegmentConfig :=
  { id := "w1", text := "alpha", startTime := 0, endTime := 1, audioUrl := none
    wordTimings := [{ word := "alpha", startTime := 0, endTime := 1, index := 7 }] }

/-- Second witness segment for the amended C6: starts within the default
gap threshold of `mergeSegA`'s end, and carries an audio url. -/
def mergeSegB : NarrationSegmentConfig :=
  { id := "w2", text := "beta", startTime := 6/5, endTime := 2, audioUrl := some "u"
    wordTimings := [{ word := "beta", startTime := 6/5, endTime := 2, index := 0 }] }

/-- Narration track holding events `[0,1000)` and `[1000,2000)`. -/
def backToBackTrack : TimelineTrack :=
  { id := "t1", type := .narration
    events := [⟨"a1", .narration_segment, 0, 1000⟩, ⟨"b1", .narration_segment, 1000, 2000⟩]
    locked := false, visible := true }

/-- Narration track holding events `[0,1000)` and `[900,2000)`. -/
def overlappingTrack : TimelineTrack :=
  { id := "t2", type := .narration
    events := [⟨"a2", .narration_segment, 0, 1000⟩, ⟨"b2", .narration_segment, 900, 2000⟩]
    locked := false, visible := true }

/-- Narration track holding events `[0,1000)` and `[10000,11000)`. -/
def gappedTrack : TimelineTrack :=
  { id := "t3", type := .narration
    events := [⟨"a3", .narration_segment, 0, 1000⟩, ⟨"b3", .narration_segment, 10000, 11000⟩]
    locked := false, visible := true }

/-- A drawing track with one event, unlocked and visible. -/
def drawingTrackA : TimelineTrack :=
  { id := "da", type := .drawing
    events := [⟨"d1", .draw_stroke, 500, 900⟩]
    locked := false, visible := true }

/-- A second drawing track with one earlier event, locked and hidden. -/
def drawingTrackB : TimelineTrack :=
  { id := "db", type := .drawing
    events := [⟨"d2", .draw_stroke, 0, 400⟩]
    locked := true, visible := false }

end ClassFlow

namespace ClassFlow

/-- C1 counterexample: from a playing state that the advance completes,
`advance` then `seek(t)` differs from `seek(t)` alone (the former ends
stopped with status `ready`, the latter stays `playing`), although
`deltaMs ≥ 0` and `t ∈ [0, duration]` as the claim requires. -/
theorem seek_after_completing_advance_ne_seek :
    seekEngine (advanceEngineState playingNearEnd 10) 5 ≠ seekEngine playingNearEnd 5 ∧
    (0:ℚ) ≤ 10 ∧ (0:ℚ) ≤ 5 ∧ (5:ℚ) ≤ playingNearEnd.duration := by
  refine ⟨?_, by norm_num, by norm_num, by norm_num [playingNearEnd]⟩
  intro h
  have := congrArg EngineState.status h
  simp [seekEngine, advanceEngineState, playingNearEnd] at this

/-- C1 (amended): for `deltaMs ≥ 0` and `t ∈ [0, duration]`, `advance`
followed by `seek(t)` equals `seek(t)` alone, provided the advance does not
complete the timeline (i.e. it is not the case that the state is playing and
`currentTime + deltaMs·playbackRate` reaches `duration`). -/
theorem seek_after_advance_eq_seek (s : EngineState) (deltaMs t : ℚ)
    (hd : 0 ≤ deltaMs) (ht0 : 0 ≤ t) (ht1 : t ≤ s.duration)
    (hnc : ¬(s.isPlaying = true ∧ s.status = .playing ∧
      s.duration ≤ s.currentTime + deltaMs * s.playbackRate)) :
    seekEngine (advanceEngineState s deltaMs) t = seekEngine s t := by
  by_cases h : s.isPlaying = true ∧ s.status = EngineStatus.playing
  · have hlt : ¬ s.duration ≤ s.currentTime + deltaMs * s.playbackRate :=
      fun hge => hnc ⟨h.1, h.2, hge⟩
    simp [advanceEngineState, seekEngine, h, hlt]
  · simp [advanceEngineState, seekEngine, h]

/-- Witness for the amended C1 at a paused state. -/
theorem seek_after_advance_eq_seek_witness :
    seekEngine (advanceEngineState (pauseEngine playingNearEnd) 3) 5 =
      seekEngine (pauseEngine playingNearEnd) 5 :=
  seek_after_advance_eq_seek (pauseEngine playingNearEnd) 3 5 (by norm_num)
    (by norm_num) (by norm_num [pauseEngine, playingNearEnd])
    (by simp [pauseEngine, playingNearEnd])

/-- C2: the invariant `isPlaying ⇔ status == 'playing'` holds for the
initial engine state and is preserved by all seven pure engine-state
transitions. -/
theorem engineInvariant_preserved :
    engineInvariant createInitialEngineState ∧
    ∀ s, engineInvariant s →
      (∀ d, engineInvariant (advanceEngineState s d)) ∧
      engineInvariant (pauseEngine s) ∧
      engineInvariant (resumeEngine s) ∧
      (∀ t, engineInvariant (seekEngine s t)) ∧
      (∀ r, engineInvariant (setPlaybackRate s r)) ∧
      (∀ st, engineInvariant (setEngineStatus s st)) ∧
      (∀ d, engineInvariant (setEngineDuration s d)) := by
  constructor
  · simp [engineInvariant, createInitialEngineState]
  intro s hs
  refine ⟨?_, ?_, ?_, ?_, ?_, ?_, ?_⟩
  · intro d
    by_cases h : s.isPlaying = true ∧ s.status = EngineStatus.playing
    · by_cases h2 : s.duration ≤ s.currentTime + d * s.playbackRate
      · simp [engineInvariant, advanceEngineState, h, h2]
      · simpa [engineInvariant, advanceEngineState, h, h2] using hs
    · simpa [engineInvariant, advanceEngineState, h] using hs
  · by_cases h : s.isPlaying = false
    · simpa [engineInvariant, pauseEngine, h] using hs
    · simp [engineInvariant, pauseEngine, h]
  · by_cases h : s.status ≠ EngineStatus.paused ∧ s.status ≠ EngineStatus.ready
    · simpa [engineInvariant, resumeEngine, h] using hs
    · simp [engineInvariant, resumeEngine, h]
  · intro t
    simpa [engineInvariant, seekEngine] using hs
  · intro r
    simpa [engineInvariant, setPlaybackRate] using hs
  · intro st
    simp [engineInvariant, setEngineStatus]
  · intro d
    by_cases h : s.status = EngineStatus.loading ∨ s.status = EngineStatus.idle
    · have hnp : ¬ s.status = EngineStatus.playing := by
        rcases h with h | h <;> simp [h]
      have hfalse : s.isPlaying = false := by
        cases hip : s.isPlaying
        · rfl
        · exact absurd (hs.mp hip) hnp
      simp [engineInvariant, setEngineDuration, h, hfalse]
    · simpa [engineInvariant, setEngineDuration, h] using hs

/-- Witness for C2: the invariant holds at the initial state and after a
pause transition from it. -/
theorem engineInvariant_preserved_witness :
    engineInvariant createInitialEngineState ∧
    engineInvariant (pauseEngine createInitialEngineState) :=
  ⟨engineInvariant_preserved.1,
    (engineInvariant_preserved.2 createInitialEngineState
      engineInvariant_preserved.1).2.1⟩

/-- C3 counterexample: in the playing, non-completing branch the claim says
`currentTime` becomes `currentTime + deltaMs·playbackRate`, but the code
floors the new time at `0` (`Math.max(0, newTime)`), so a negative delta
from time `0` yields `0`, not the negative sum. -/
theorem advance_currentTime_ne_sum :
    (advanceEngineState playingNearEnd (-5)).currentTime ≠
      playingNearEnd.currentTime + (-5) * playingNearEnd.playbackRate ∧
    playingNearEnd.isPlaying = true ∧ playingNearEnd.status = .playing ∧
    playingNearEnd.currentTime + (-5) * playingNearEnd.playbackRate <
      playingNearEnd.duration := by
  refine ⟨?_, rfl, rfl, by norm_num [playingNearEnd]⟩
  norm_num [advanceEngineState, playingNearEnd]

/-- C3 (amended): `advanceEngineState` returns the state unchanged unless it
is playing; when playing, it completes (`currentTime = duration`, stopped,
`ready`) as soon as the sum reaches `duration`, and otherwise sets
`currentTime` to the sum floored at `0`. -/
theorem advanceEngineState_spec (s : EngineState) (d : ℚ) :
    (¬(s.isPlaying = true ∧ s.status = .playing) → advanceEngineState s d = s) ∧
    (s.isPlaying = true → s.status = .playing →
      (s.duration ≤ s.currentTime + d * s.playbackRate →
        advanceEngineState s d =
          { s with currentTime := s.duration, isPlaying := false, status := .ready }) ∧
      (s.currentTime + d * s.playbackRate < s.duration →
        advanceEngineState s d =
          { s with currentTime := max 0 (s.currentTime + d * s.playbackRate) })) := by
  refine ⟨fun h => by simp [advanceEngineState, h], fun h1 h2 => ⟨fun h3 => ?_, fun h3 => ?_⟩⟩
  · simp [advanceEngineState, h1, h2, h3]
  · simp [advanceEngineState, h1, h2, not_le.mpr h3]

/-- Witness for the amended C3: a negative delta from time `0` floors at `0`. -/
theorem advanceEngineState_spec_witness :
    advanceEngineState playingNearEnd (-5) =
      { playingNearEnd with
          currentTime := max 0 (playingNearEnd.currentTime +
            (-5) * playingNearEnd.playbackRate) } :=
  ((advanceEngineState_spec playingNearEnd (-5)).2 rfl rfl).2
    (by norm_num [playingNearEnd])

/-- C4: `setPlaybackRate` clamps the rate into
`[MIN_PLAYBACK_RATE, MAX_PLAYBACK_RATE] = [0.25, 4.0]` — exact inside the
range, clamped to the violated bound outside — and leaves every other
field unchanged. -/
theorem setPlaybackRate_spec (s : EngineState) (r : ℚ) :
    MIN_PLAYBACK_RATE ≤ (setPlaybackRate s r).playbackRate ∧
    (setPlaybackRate s r).playbackRate ≤ MAX_PLAYBACK_RATE ∧
    (MIN_PLAYBACK_RATE ≤ r → r ≤ MAX_PLAYBACK_RATE →
      (setPlaybackRate s r).playbackRate = r) ∧
    (r < MIN_PLAYBACK_RATE → (setPlaybackRate s r).playbackRate = MIN_PLAYBACK_RATE) ∧
    (MAX_PLAYBACK_RATE < r → (setPlaybackRate s r).playbackRate = MAX_PLAYBACK_RATE) ∧
    (setPlaybackRate s r).isPlaying = s.isPlaying ∧
    (setPlaybackRate s r).currentTime = s.currentTime ∧
    (setPlaybackRate s r).duration = s.duration ∧
    (setPlaybackRate s r).status = s.status := by
  have hlohi : MIN_PLAYBACK_RATE ≤ MAX_PLAYBACK_RATE := by
    norm_num [MIN_PLAYBACK_RATE, MAX_PLAYBACK_RATE]
  refine ⟨?_, ?_, ?_, ?_, ?_, rfl, rfl, rfl, rfl⟩
  · exact le_min (le_max_right _ _) hlohi
  · exact min_le_right _ _
  · intro h1 h2
    simp [setPlaybackRate, clampTime, max_eq_left h1, min_eq_left h2]
  · intro h
    simp [setPlaybackRate, clampTime, max_eq_right h.le, min_eq_left hlohi]
  · intro h
    have : MIN_PLAYBACK_RATE ≤ r := hlohi.trans h.le
    simp [setPlaybackRate, clampTime, max_eq_left this, min_eq_right h.le]

/-- Witness for C4: a rate request of `5` clamps to `4`, one of `1/8`
clamps to `1/4`, and one of `2` is kept exactly. -/
theorem setPlaybackRate_spec_witness :
    (setPlaybackRate playingNearEnd 5).playbackRate = MAX_PLAYBACK_RATE ∧
    (setPlaybackRate playingNearEnd (1/8)).playbackRate = MIN_PLAYBACK_RATE ∧
    (setPlaybackRate playingNearEnd 2).playbackRate = 2 :=
  ⟨(setPlaybackRate_spec playingNearEnd 5).2.2.2.2.1
      (by norm_num [MAX_PLAYBACK_RATE]),
    (setPlaybackRate_spec playingNearEnd (1/8)).2.2.2.1
      (by norm_num [MIN_PLAYBACK_RATE]),
    (setPlaybackRate_spec playingNearEnd 2).2.2.1
      (by norm_num [MIN_PLAYBACK_RATE]) (by norm_num [MAX_PLAYBACK_RATE])⟩

/-- C5: on `[0,1000)` and `[1000,2000)` `validateTimeline` reports nothing;
on `[0,1000)` and `[900,2000)` exactly one overlap error of severity
`error`; on `[0,1000)` and `[10000,11000)` exactly one gap warning of
severity `warning`. -/
theorem validateTimeline_scenarios :
    validateTimeline [backToBackTrack] = [] ∧
    validateTimeline [overlappingTrack] =
      [{ eventId := "b2", message := .overlapsPrevious "a2" 100, severity := .error }] ∧
    validateTimeline [gappedTrack] =
      [{ eventId := "b3", message := .largeGap 9000, severity := .warning }] := by
  refine ⟨?_, ?_, ?_⟩ <;>
    norm_num [validateTimeline, sortTimelineEvents, List.insertionSort,
      List.orderedInsert, nonPositiveDurationErrors, adjacentPairErrors, eventLe,
      backToBackTrack, overlappingTrack, gappedTrack,
      OVERLAP_TOLERANCE_MS, GAP_WARNING_THRESHOLD_MS]

/-- C7: merging two same-type tracks succeeds with the concatenated event
lists re-sorted ascending by `startTime` (ties by `endTime`), an event count
equal to the sum of the inputs' counts, and the first track's lock and
visibility flags; merging different types is the timeline module's one hard
failure. -/
theorem mergeTimelineTracks_spec (a b : TimelineTrack) :
    (a.type = b.type →
      ∃ t, mergeTimelineTracks a b = .ok t ∧
        t.events.Perm (a.events ++ b.events) ∧
        List.Sorted eventLe t.events ∧
        t.events.length = a.events.length + b.events.length ∧
        t.locked = a.locked ∧ t.visible = a.visible) ∧
    (a.type ≠ b.type → ∃ msg, mergeTimelineTracks a b = .error msg) := by
  constructor
  · intro h
    refine ⟨{ id := generateId "trk", type := a.type
              events := sortTimelineEvents (a.events ++ b.events)
              locked := a.locked, visible := a.visible },
      by simp [mergeTimelineTracks, h], ?_, ?_, ?_, rfl, rfl⟩
    · exact List.perm_insertionSort eventLe (a.events ++ b.events)
    · exact List.sorted_insertionSort eventLe (a.events ++ b.events)
    · calc (sortTimelineEvents (a.events ++ b.events)).length
          = (a.events ++ b.events).length :=
            (List.perm_insertionSort eventLe (a.events ++ b.events)).length_eq
        _ = a.events.length + b.events.length := List.length_append _ _
  · intro h
    exact ⟨"Cannot merge tracks of different types", by simp [mergeTimelineTracks, h]⟩

/-- Witness for C7: two drawing tracks merge into a sorted two-event track,
and a drawing track does not merge with a narration track. -/
theorem mergeTimelineTracks_spec_witness :
    (∃ t, mergeTimelineTracks drawingTrackA drawingTrackB = .ok t ∧
      t.events.Perm (drawingTrackA.events ++ drawingTrackB.events) ∧
      List.Sorted eventLe t.events ∧
      t.events.length = drawingTrackA.events.length + drawingTrackB.events.length ∧
      t.locked = drawingTrackA.locked ∧ t.visible = drawingTrackA.visible) ∧
    (∃ msg, mergeTimelineTracks drawingTrackA backToBackTrack = .error msg) :=
  ⟨(mergeTimelineTracks_spec drawingTrackA drawingTrackB).1 rfl,
    (mergeTimelineTracks_spec drawingTrackA backToBackTrack).2 (by decide)⟩

/-- C6 counterexample: merging `[0,10]` and the nested `[1,5]` (both in one
group under the default threshold) produces a segment whose `endTime` is
`5` — the end of the group's *last-sorted* segment — not the group's latest
`endTime`, which is `10`. -/
theorem mergeAdjacentSegments_endTime_not_latest :
    mergeAdjacentSegments [nestedSegA, nestedSegB] DEFAULT_MERGE_GAP_THRESHOLD =
      [{ id := generateId "nar", text := "hello world", startTime := 0, endTime := 5,
         audioUrl := none, wordTimings := [] }] ∧
    max nestedSegA.endTime nestedSegB.endTime = 10 ∧ (5 : ℚ) ≠ 10 := by
  have hj : " ".intercalate ["hello", "world"] = "hello world" := rfl
  refine ⟨?_, by norm_num [nestedSegA, nestedSegB], by norm_num⟩
  norm_num [mergeAdjacentSegments, sortSegmentsByStart, List.insertionSort,
    List.orderedInsert, segLe, mergeLoop, collapseGroup, reindexFrom,
    DEFAULT_MERGE_GAP_THRESHOLD, nestedSegA, nestedSegB, hj]

lemma reindexFrom_map_word (l : List WordTiming) :
    ∀ i, (reindexFrom i l).map WordTiming.word = l.map WordTiming.word := by
  induction l with
  | nil => intro i; rfl
  | cons wt rest ih => intro i; simp [reindexFrom, ih]

lemma reindexFrom_map_startTime (l : List WordTiming) :
    ∀ i, (reindexFrom i l).map WordTiming.startTime = l.map WordTiming.startTime := by
  induction l with
  | nil => intro i; rfl
  | cons wt rest ih => intro i; simp [reindexFrom, ih]

lemma reindexFrom_map_endTime (l : List WordTiming) :
    ∀ i, (reindexFrom i l).map WordTiming.endTime = l.map WordTiming.endTime := by
  induction l with
  | nil => intro i; rfl
  | cons wt rest ih => intro i; simp [reindexFrom, ih]

lemma reindexFrom_map_index (l : List WordTiming) :
    ∀ i, (reindexFrom i l).map WordTiming.index = List.range' i l.length := by
  induction l with
  | nil => intro i; rfl
  | cons wt rest ih => intro i; simp [reindexFrom, ih, List.range']

/-- Shape of `collapseGroup` on a group of at least two segments that is
sorted by `startTime`. -/
lemma collapseGroup_props (a b : NarrationSegmentConfig)
    (rest : List NarrationSegmentConfig)
    (hsort : List.Sorted segLe (a :: b :: rest)) :
    (collapseGroup (a :: b :: rest)).text =
      " ".intercalate ((a :: b :: rest).map NarrationSegmentConfig.text) ∧
    (∀ s ∈ a :: b :: rest, (collapseGroup (a :: b :: rest)).startTime ≤ s.startTime) ∧
    (collapseGroup (a :: b :: rest)).startTime ∈
      (a :: b :: rest).map NarrationSegmentConfig.startTime ∧
    ((a :: b :: rest).getLast?).map NarrationSegmentConfig.endTime =
      some (collapseGroup (a :: b :: rest)).endTime ∧
    (collapseGroup (a :: b :: rest)).wordTimings.map WordTiming.word =
      (((a :: b :: rest).map NarrationSegmentConfig.wordTimings).flatten).map
        WordTiming.word ∧
    (collapseGroup (a :: b :: rest)).wordTimings.map WordTiming.startTime =
      (((a :: b :: rest).map NarrationSegmentConfig.wordTimings).flatten).map
        WordTiming.startTime ∧
    (collapseGroup (a :: b :: rest)).wordTimings.map WordTiming.endTime =
      (((a :: b :: rest).map NarrationSegmentConfig.wordTimings).flatten).map
        WordTiming.endTime ∧
    (collapseGroup (a :: b :: rest)).wordTimings.map WordTiming.index =
      List.range (((a :: b :: rest).map NarrationSegmentConfig.wordTimings).flatten).length ∧
    (collapseGroup (a :: b :: rest)).audioUrl =
      ((a :: b :: rest).find? fun s => s.audioUrl.isSome).bind
        NarrationSegmentConfig.audioUrl := by
  have hstart : (collapseGroup (a :: b :: rest)).startTime = a.startTime := rfl
  refine ⟨rfl, ?_, ?_, ?_, ?_, ?_, ?_, ?_, rfl⟩
  · intro s hs
    rcases List.mem_cons.mp hs with h | h
    · exact le_of_eq (by rw [hstart, h])
    · exact hstart ▸ (List.sorted_cons.mp hsort).1 s h
  · rw [hstart]
    exact List.mem_map_of_mem NarrationSegmentConfig.startTime
      (List.mem_cons_self a (b :: rest))
  · rw [List.getLast?_eq_getLast_of_ne_nil (l := a :: b :: rest) (by simp)]
    rfl
  · exact reindexFrom_map_word _ 0
  · exact reindexFrom_map_startTime _ 0
  · exact reindexFrom_map_endTime _ 0
  · rw [show (collapseGroup (a :: b :: rest)).wordTimings =
      reindexFrom 0
        (((a :: b :: rest).map NarrationSegmentConfig.wordTimings).flatten) from rfl,
      reindexFrom_map_index, List.range_eq_range']

/-- The grouping loop realises a partition: its output is exactly the
collapses of a list of nonempty groups whose concatenation is the loop's
whole input, where consecutive segments inside a group are within
`gapThreshold` and the gap between consecutive groups exceeds it.
Preconditions: the accumulated `group` is nonempty and internally
gap-chained, as at every call site of the source loop. -/
lemma mergeLoop_partition (gapThreshold : ℚ) :
    ∀ (rest group : List NarrationSegmentConfig), group ≠ [] →
      List.Chain' (fun x y => y.startTime - x.endTime ≤ gapThreshold) group →
      ∃ gs : List (List NarrationSegmentConfig),
        gs.flatten = group ++ rest ∧
        (∀ g ∈ gs, g ≠ []) ∧
        mergeLoop gapThreshold group rest = gs.map collapseGroup ∧
        (∀ g ∈ gs,
          List.Chain' (fun x y => y.startTime - x.endTime ≤ gapThreshold) g) ∧
        List.Chain' (fun g1 g2 => ∀ p ∈ g1.getLast?, ∀ q ∈ g2.head?,
          gapThreshold < q.startTime - p.endTime) gs := by
  intro rest
  induction rest with
  | nil =>
      intro group hne hchain
      refine ⟨[group], by simp, by simpa using hne, by simp [mergeLoop], ?_, ?_⟩
      · simpa using hchain
      · exact List.chain'_singleton group
  | cons current rest ih =>
      intro group hne hchain
      rcases hgl : group.getLast? with _ | prev
      · exact absurd (List.getLast?_eq_none_iff.mp hgl) hne
      have hprev : group.getLastD current = prev := by
        rw [List.getLastD_eq_getLast?, hgl]
        rfl
      by_cases hc : current.startTime - prev.endTime ≤ gapThreshold
      · obtain ⟨gs, hflat, hnonempty, hloop, hchains, hbound⟩ :=
          ih (group ++ [current]) (by simp) (by
            refine List.chain'_append.mpr ⟨hchain, List.chain'_singleton current, ?_⟩
            intro x hx y hy
            rw [hgl] at hx
            simp only [Option.mem_def, Option.some.injEq] at hx
            simp only [List.head?_cons, Option.mem_def, Option.some.injEq] at hy
            cases hx
            cases hy
            exact hc)
        refine ⟨gs, ?_, hnonempty, ?_, hchains, hbound⟩
        · rw [hflat]
          simp [List.append_assoc]
        · simp only [mergeLoop, hprev]
          rw [if_pos hc]
          exact hloop
      · obtain ⟨gs, hflat, hnonempty, hloop, hchains, hbound⟩ :=
          ih [current] (by simp) (List.chain'_singleton current)
        refine ⟨group :: gs, ?_, ?_, ?_, ?_, ?_⟩
        · simp [hflat]
        · intro g hg
          rcases List.mem_cons.mp hg with rfl | hg
          · exact hne
          · exact hnonempty g hg
        · simp only [mergeLoop, hprev]
          rw [if_neg hc, List.map_cons, hloop]
        · intro g hg
          rcases List.mem_cons.mp hg with rfl | hg
          · exact hchain
          · exact hchains g hg
        · refine List.chain'_cons'.mpr ⟨?_, hbound⟩
          intro g1 hg1 p hp q hq
          rcases gs with _ | ⟨g1', gs2⟩
          · simp at hg1
          · simp only [List.head?_cons, Option.mem_def, Option.some.injEq] at hg1
            rw [← hg1] at hq
            have hg1ne : g1' ≠ [] := hnonempty g1' (List.mem_cons_self g1' gs2)
            rcases g1' with _ | ⟨c, g1t⟩
            · exact absurd rfl hg1ne
            · have hcc : c = current := by
                simpa using congrArg List.head? hflat
              simp only [List.head?_cons, Option.mem_def, Option.some.injEq] at hq
              rw [hgl] at hp
              simp only [Option.mem_def, Option.some.injEq] at hp
              cases hq
              cases hp
              rw [hcc]
              exact lt_of_not_le hc

/-- C6 (amended): `mergeAdjacentSegments` partitions the start-time-sorted
input into nonempty groups — consecutive segments inside a group within
`gapThreshold` of each other, consecutive groups separated by more than it —
and outputs exactly the collapses of those groups in order; every group of
two or more segments collapses to a segment with the texts concatenated with
single spaces, the earliest `startTime` of the group, the `endTime` of the
group's last segment in start-time order (not necessarily the latest
`endTime`), word timings preserved in order and re-indexed consecutively
from `0`, and the first non-null `audioUrl` of the group (null if none). -/
theorem mergeAdjacentSegments_group_spec (segments : List NarrationSegmentConfig)
    (gapThreshold : ℚ) :
    ∃ gs : List (List NarrationSegmentConfig),
      gs.flatten = sortSegmentsByStart segments ∧
      (∀ g ∈ gs, g ≠ []) ∧
      mergeAdjacentSegments segments gapThreshold = gs.map collapseGroup ∧
      (∀ g ∈ gs,
        List.Chain' (fun x y => y.startTime - x.endTime ≤ gapThreshold) g) ∧
      List.Chain' (fun g1 g2 => ∀ p ∈ g1.getLast?, ∀ q ∈ g2.head?,
        gapThreshold < q.startTime - p.endTime) gs ∧
      ∀ g ∈ gs, List.Sorted segLe g ∧
        (2 ≤ g.length →
          (collapseGroup g).text =
            " ".intercalate (g.map NarrationSegmentConfig.text) ∧
          (∀ s ∈ g, (collapseGroup g).startTime ≤ s.startTime) ∧
          (collapseGroup g).startTime ∈ g.map NarrationSegmentConfig.startTime ∧
          (g.getLast?).map NarrationSegmentConfig.endTime =
            some (collapseGroup g).endTime ∧
          (collapseGroup g).wordTimings.map WordTiming.word =
            ((g.map NarrationSegmentConfig.wordTimings).flatten).map
              WordTiming.word ∧
          (collapseGroup g).wordTimings.map WordTiming.startTime =
            ((g.map NarrationSegmentConfig.wordTimings).flatten).map
              WordTiming.startTime ∧
          (collapseGroup g).wordTimings.map WordTiming.endTime =
            ((g.map NarrationSegmentConfig.wordTimings).flatten).map
              WordTiming.endTime ∧
          (collapseGroup g).wordTimings.map WordTiming.index =
            List.range ((g.map NarrationSegmentConfig.wordTimings).flatten).length ∧
          (collapseGroup g).audioUrl =
            (g.find? fun s => s.audioUrl.isSome).bind
              NarrationSegmentConfig.audioUrl) := by
  rcases hsorted : sortSegmentsByStart segments with _ | ⟨s0, rest⟩
  · refine ⟨[], by simp [hsorted], by simp, ?_, by simp, by simp, by simp⟩
    unfold mergeAdjacentSegments
    rw [hsorted]
    simp
  · have hsort0 : List.Sorted segLe (s0 :: rest) := by
      have h := List.sorted_insertionSort segLe segments
      rw [show List.insertionSort segLe segments = sortSegmentsByStart segments
        from rfl, hsorted] at h
      exact h
    obtain ⟨gs, hflat, hnonempty, hloop, hchains, hbound⟩ :=
      mergeLoop_partition gapThreshold rest [s0] (by simp)
        (List.chain'_singleton s0)
    have hflat' : gs.flatten = s0 :: rest := by simpa using hflat
    refine ⟨gs, hflat', hnonempty, ?_, hchains, hbound, ?_⟩
    · unfold mergeAdjacentSegments
      rw [hsorted]
      exact hloop
    · intro g hg
      have hsub : g.Sublist gs.flatten := List.sublist_flatten_of_mem hg
      rw [hflat'] at hsub
      have hgsort : List.Sorted segLe g := List.Pairwise.sublist hsub hsort0
      refine ⟨hgsort, ?_⟩
      intro hlen
      rcases g with _ | ⟨a, _ | ⟨b, grest⟩⟩
      · simp at hlen
      · simp at hlen
      · exact collapseGroup_props a b grest hgsort

lemma splitWordsAux_pos :
    ∀ (cs acc : List Char), ∀ w ∈ splitWordsAux cs acc, 0 < w.length := by
  intro cs
  induction cs with
  | nil =>
      intro acc w hw
      by_cases ha : acc.isEmpty
      · simp [splitWordsAux, ha] at hw
      · simp [splitWordsAux, ha] at hw
        subst hw
        simpa [String.length, List.isEmpty_iff] using
          List.length_pos.mpr (by simpa [List.isEmpty_iff] using ha)
  | cons c cs ih =>
      intro acc w hw
      by_cases hc : c.isWhitespace
      · simp only [splitWordsAux, hc, if_true, List.mem_append] at hw
        rcases hw with hw | hw
        · by_cases ha : acc.isEmpty
          · simp [ha] at hw
          · simp [ha] at hw
            subst hw
            simpa [String.length, List.isEmpty_iff] using
              List.length_pos.mpr (by simpa [List.isEmpty_iff] using ha)
        · exact ih [] w hw
      · simp only [splitWordsAux, hc, if_false] at hw
        exact ih (acc ++ [c]) w hw

/-- Every word `splitWords` returns is non-empty. -/
lemma splitWords_pos (text : String) : ∀ w ∈ splitWords text, 0 < w.length :=
  splitWordsAux_pos text.data []

/-- Behaviour of the `estimateWordTimings` main loop on a nonempty word
list: one timing per word, the first starting at the cursor, each timing
starting where the previous one ends, the last ending exactly at `endTime`,
and indices running consecutively from the start index. -/
lemma wordTimingsLoop_spec (totalChars : ℕ) (totalDuration e : ℚ) :
    ∀ (ws : List String) (cursor : ℚ) (i : ℕ), ws ≠ [] →
      (wordTimingsLoop totalChars totalDuration e cursor i ws).length = ws.length ∧
      ((wordTimingsLoop totalChars totalDuration e cursor i ws).map
        WordTiming.startTime).head? = some cursor ∧
      List.Chain' (fun a b => b.startTime = a.endTime)
        (wordTimingsLoop totalChars totalDuration e cursor i ws) ∧
      ((wordTimingsLoop totalChars totalDuration e cursor i ws).map
        WordTiming.endTime).getLast? = some e ∧
      (wordTimingsLoop totalChars totalDuration e cursor i ws).map WordTiming.index =
        List.range' i ws.length := by
  intro ws
  induction ws with
  | nil => intro cursor i h; exact absurd rfl h
  | cons w rest ih =>
      intro cursor i _
      cases rest with
      | nil => simp [wordTimingsLoop, List.range']
      | cons w2 ws2 =>
          obtain ⟨ihlen, ihhead, ihchain, ihlast, ihidx⟩ :=
            ih (cursor + totalDuration * ((w.length : ℚ) / (totalChars : ℚ))) (i + 1)
              (by simp)
          refine ⟨by simpa [wordTimingsLoop] using ihlen, by simp [wordTimingsLoop], ?_, ?_, ?_⟩
          · rw [show wordTimingsLoop totalChars totalDuration e cursor i (w :: w2 :: ws2) =
              { word := w, startTime := cursor
                endTime := cursor + totalDuration * ((w.length : ℚ) / (totalChars : ℚ))
                index := i } ::
                wordTimingsLoop totalChars totalDuration e
                  (cursor + totalDuration * ((w.length : ℚ) / (totalChars : ℚ))) (i + 1)
                  (w2 :: ws2) from rfl]
            refine List.chain'_cons'.mpr ⟨?_, ihchain⟩
            intro y hy
            have hh := ihhead
            rw [List.head?_map] at hh
            rcases Option.map_eq_some'.mp hh with ⟨z, hz, hzs⟩
            rw [hy] at hz
            cases hz
            exact hzs
          · rcases hlp : wordTimingsLoop totalChars totalDuration e
                (cursor + totalDuration * ((w.length : ℚ) / (totalChars : ℚ))) (i + 1)
                (w2 :: ws2) with _ | ⟨t0, ts⟩
            · rw [hlp] at ihlen
              simp at ihlen
            · rw [show wordTimingsLoop totalChars totalDuration e cursor i (w :: w2 :: ws2) =
                { word := w, startTime := cursor
                  endTime := cursor + totalDuration * ((w.length : ℚ) / (totalChars : ℚ))
                  index := i } ::
                  wordTimingsLoop totalChars totalDuration e
                    (cursor + totalDuration * ((w.length : ℚ) / (totalChars : ℚ))) (i + 1)
                    (w2 :: ws2) from rfl, hlp]
              rw [hlp] at ihlast
              simpa using ihlast
          · rw [show wordTimingsLoop totalChars totalDuration e cursor i (w :: w2 :: ws2) =
              { word := w, startTime := cursor
                endTime := cursor + totalDuration * ((w.length : ℚ) / (totalChars : ℚ))
                index := i } ::
                wordTimingsLoop totalChars totalDuration e
                  (cursor + totalDuration * ((w.length : ℚ) / (totalChars : ℚ))) (i + 1)
                  (w2 :: ws2) from rfl]
            simp only [List.map_cons, ihidx, List.length_cons]
            simp [List.range']

/-- C10: for non-blank text and `startTime < endTime`, the estimated word
timings tile `[startTime, endTime]` contiguously: the first word starts at
`startTime`, each word starts where the previous one ends, the last word
ends exactly at `endTime`, and indices run consecutively from `0`. -/
theorem estimateWordTimings_partition (text : String) (s e : ℚ)
    (hw : splitWords text ≠ []) (hse : s < e) :
    estimateWordTimings text s e ≠ [] ∧
    ((estimateWordTimings text s e).map WordTiming.startTime).head? = some s ∧
    List.Chain' (fun a b => b.startTime = a.endTime) (estimateWordTimings text s e) ∧
    ((estimateWordTimings text s e).map WordTiming.endTime).getLast? = some e ∧
    (estimateWordTimings text s e).map WordTiming.index =
      List.range (estimateWordTimings text s e).length := by
  have hchars : ((splitWords text).map String.length).sum ≠ 0 := by
    rcases hsw : splitWords text with _ | ⟨w, rest⟩
    · exact absurd hsw hw
    · have hwpos : 0 < w.length :=
        splitWords_pos text w (hsw ▸ List.mem_cons_self w rest)
      simp only [List.map_cons, List.sum_cons]
      omega
  have hdur : ¬(e - s ≤ 0 ∨ ((splitWords text).map String.length).sum = 0) := by
    push_neg
    exact ⟨by linarith, hchars⟩
  obtain ⟨hlen, hhead, hchain, hlast, hidx⟩ :=
    wordTimingsLoop_spec ((splitWords text).map String.length).sum (e - s) e
      (splitWords text) s 0 hw
  have heq : estimateWordTimings text s e =
      wordTimingsLoop ((splitWords text).map String.length).sum (e - s) e s 0
        (splitWords text) := by
    simp only [estimateWordTimings, if_neg hw, if_neg hdur]
  rw [heq]
  refine ⟨?_, hhead, hchain, hlast, ?_⟩
  · intro hnil
    rw [hnil] at hlen
    exact hw (List.length_eq_zero.mp (by simpa using hlen.symm))
  · rw [hidx, hlen, List.range_eq_range']

lemma clamp01_of_mem (x : ℝ) (h0 : 0 ≤ x) (h1 : x ≤ 1) : clamp01 x = x := by
  simp [clamp01, max_eq_left h0, min_eq_left h1]

/-- C8: De Casteljau subdivision at `t ∈ [0,1]` reproduces the original
curve: the left half evaluated at `s` is the original at `t·s`, the right
half at `s` is the original at `t + (1-t)·s`, the endpoint of the left half
is the start of the right half, and the outer endpoints are preserved. -/
theorem splitBezierAt_reproduces (c : BezierCurve) (t s : ℝ)
    (ht0 : 0 ≤ t) (ht1 : t ≤ 1) (hs0 : 0 ≤ s) (hs1 : s ≤ 1) :
    (splitBezierAt c t).1.start = c.start ∧
    (splitBezierAt c t).2.endP = c.endP ∧
    (splitBezierAt c t).1.endP = (splitBezierAt c t).2.start ∧
    evaluateBezierPoint (splitBezierAt c t).1 s = evaluateBezierPoint c (t * s) ∧
    evaluateBezierPoint (splitBezierAt c t).2 s =
      evaluateBezierPoint c (t + (1 - t) * s) := by
  have hct : clamp01 t = t := clamp01_of_mem t ht0 ht1
  have hcs : clamp01 s = s := clamp01_of_mem s hs0 hs1
  have hts : clamp01 (t * s) = t * s :=
    clamp01_of_mem _ (mul_nonneg ht0 hs0) (mul_le_one₀ ht1 hs0 hs1)
  have h1t : (0:ℝ) ≤ 1 - t := by linarith
  have hrs : clamp01 (t + (1 - t) * s) = t + (1 - t) * s := by
    refine clamp01_of_mem _ (add_nonneg ht0 (mul_nonneg h1t hs0)) ?_
    nlinarith
  refine ⟨rfl, rfl, rfl, ?_, ?_⟩
  · apply Point.ext <;>
      · simp only [evaluateBezierPoint, splitBezierAt, lerpPoint, hct, hcs, hts]
        ring
  · apply Point.ext <;>
      · simp only [evaluateBezierPoint, splitBezierAt, lerpPoint, hct, hcs, hrs]
        ring

/-- Witness for C8: a concrete quarter-circle-like curve split at `1/2`,
evaluated at `1/3`. -/
theorem splitBezierAt_reproduces_witness :
    (splitBezierAt unitArc (1/2)).1.start = unitArc.start ∧
    (splitBezierAt unitArc (1/2)).2.endP = unitArc.endP ∧
    (splitBezierAt unitArc (1/2)).1.endP = (splitBezierAt unitArc (1/2)).2.start ∧
    evaluateBezierPoint (splitBezierAt unitArc (1/2)).1 (1/3) =
      evaluateBezierPoint unitArc ((1/2) * (1/3)) ∧
    evaluateBezierPoint (splitBezierAt unitArc (1/2)).2 (1/3) =
      evaluateBezierPoint unitArc ((1/2) + (1 - 1/2) * (1/3)) :=
  splitBezierAt_reproduces unitArc (1/2) (1/3) (by norm_num) (by norm_num)
    (by norm_num) (by norm_num)

lemma distance_nonneg (a b : Point) : 0 ≤ distance a b :=
  Real.sqrt_nonneg _

lemma calculatePathLength_nonneg (l : List Point) : 0 ≤ calculatePathLength l := by
  induction l with
  | nil => simp [calculatePathLength]
  | cons a l ih =>
      cases l with
      | nil => simp [calculatePathLength]
      | cons b rest =>
          simpa [calculatePathLength] using add_nonneg (distance_nonneg a b) ih

/-- Appending one point to a nonempty polyline adds the connecting
segment's length. -/
lemma calculatePathLength_concat :
    ∀ (l : List Point) (p q : Point), l.getLast? = some p →
      calculatePathLength (l ++ [q]) = calculatePathLength l + distance p q := by
  intro l
  induction l with
  | nil => intro p q hp; simp at hp
  | cons a l ih =>
      intro p q hp
      cases l with
      | nil =>
          simp only [List.getLast?_singleton, Option.some.injEq] at hp
          subst hp
          simp [calculatePathLength]
      | cons b rest =>
          have hp' : (b :: rest).getLast? = some p := by
            rwa [List.getLast?_cons_cons] at hp
          have hstep : calculatePathLength ((a :: b :: rest) ++ [q]) =
              distance a b + calculatePathLength ((b :: rest) ++ [q]) := rfl
          rw [hstep, ih p q hp',
            show calculatePathLength (a :: b :: rest) =
              distance a b + calculatePathLength (b :: rest) from rfl]
          ring

/-- Moving from `prev` a fraction `t ≥ 0` of the way towards `curr` covers
`t` times the segment's length. -/
lemma distance_to_lerp (prev curr : Point) (t : ℝ) (ht : 0 ≤ t) :
    distance prev { x := prev.x + (curr.x - prev.x) * t
                    y := prev.y + (curr.y - prev.y) * t } =
      t * distance prev curr := by
  unfold distance
  have hsq : (prev.x + (curr.x - prev.x) * t - prev.x) *
        (prev.x + (curr.x - prev.x) * t - prev.x) +
      (prev.y + (curr.y - prev.y) * t - prev.y) *
        (prev.y + (curr.y - prev.y) * t - prev.y) =
      t ^ 2 * ((curr.x - prev.x) * (curr.x - prev.x) +
        (curr.y - prev.y) * (curr.y - prev.y)) := by ring
  rw [hsq, Real.sqrt_mul (sq_nonneg t), Real.sqrt_sq ht]

/-- Invariant proof for the `getStrokeProgress` loop: if the emitted prefix
`result` ends at `prev` and measures `accumulated`, and the target lies
strictly beyond `accumulated` but within the remaining path, then the loop
output measures exactly `target`. -/
lemma strokeProgressLoop_pathLength (target : ℝ) :
    ∀ (rest : List Point) (prev : Point) (accumulated : ℝ) (result : List Point),
      result.getLast? = some prev →
      calculatePathLength result = accumulated →
      accumulated < target →
      target ≤ accumulated + calculatePathLength (prev :: rest) →
      calculatePathLength (strokeProgressLoop target prev rest accumulated result) =
        target := by
  intro rest
  induction rest with
  | nil =>
      intro prev accumulated result hlast hacc hlt hub
      exfalso
      simp only [calculatePathLength, add_zero] at hub
      linarith
  | cons curr rest ih =>
      intro prev accumulated result hlast hacc hlt hub
      by_cases hc : target ≤ accumulated + distance prev curr
      · have hseg : 0 < distance prev curr := by
          rcases lt_or_eq_of_le (distance_nonneg prev curr) with h | h
          · exact h
          · exfalso; rw [← h] at hc; linarith
        have hseg0 : distance prev curr ≠ 0 := ne_of_gt hseg
        simp only [strokeProgressLoop]
        rw [if_pos hc, if_neg hseg0,
          calculatePathLength_concat result prev _ hlast, hacc,
          distance_to_lerp prev curr _
            (div_nonneg (by linarith) (distance_nonneg prev curr)),
          div_mul_cancel₀ _ hseg0]
        ring
      · simp only [strokeProgressLoop]
        rw [if_neg hc]
        apply ih curr (accumulated + distance prev curr) (result ++ [curr])
        · exact List.getLast?_concat result
        · rw [calculatePathLength_concat result prev curr hlast, hacc]
        · exact lt_of_not_le hc
        · have hstep : calculatePathLength (prev :: curr :: rest) =
              distance prev curr + calculatePathLength (curr :: rest) := rfl
          rw [hstep] at hub
          linarith

/-- Shape of the `getStrokeProgress` loop output: the emitted prefix, a
prefix of the remaining points, then one final (interpolated) point. -/
lemma strokeProgressLoop_shape (target : ℝ) :
    ∀ (rest : List Point) (prev : Point) (accumulated : ℝ) (result : List Point),
      accumulated < target →
      target ≤ accumulated + calculatePathLength (prev :: rest) →
      ∃ k q, strokeProgressLoop target prev rest accumulated result =
        result ++ rest.take k ++ [q] := by
  intro rest
  induction rest with
  | nil =>
      intro prev accumulated result hlt hub
      exfalso
      simp only [calculatePathLength, add_zero] at hub
      linarith
  | cons curr rest ih =>
      intro prev accumulated result hlt hub
      by_cases hc : target ≤ accumulated + distance prev curr
      · simp only [strokeProgressLoop]
        rw [if_pos hc]
        refine ⟨0,
          { x := prev.x + (curr.x - prev.x) *
              (if distance prev curr = 0 then 0
               else (target - accumulated) / distance prev curr)
            y := prev.y + (curr.y - prev.y) *
              (if distance prev curr = 0 then 0
               else (target - accumulated) / distance prev curr) }, ?_⟩
        simp
      · obtain ⟨k, q, hk⟩ := ih curr (accumulated + distance prev curr)
          (result ++ [curr]) (lt_of_not_le hc) (by
            have hstep : calculatePathLength (prev :: curr :: rest) =
                distance prev curr + calculatePathLength (curr :: rest) := rfl
            rw [hstep] at hub
            linarith)
        refine ⟨k + 1, q, ?_⟩
        simp only [strokeProgressLoop]
        rw [if_neg hc, hk]
        simp [List.take_succ_cons, List.append_assoc]

/-- C9: for a stroke of positive arc length and `0 < progress < 1`,
`getStrokeProgress` returns a prefix of the stroke's points followed by one
interpolated boundary point, and the arc length of the returned sub-path is
exactly `progress` times the stroke's arc length. -/
theorem getStrokeProgress_arcLength (stroke : Stroke) (progress : ℝ)
    (hpts : 2 ≤ stroke.points.length)
    (hpos : 0 < calculatePathLength stroke.points)
    (h0 : 0 < progress) (h1 : progress < 1) :
    calculatePathLength (getStrokeProgress stroke progress) =
      progress * calculatePathLength stroke.points ∧
    ∃ k q, getStrokeProgress stroke progress = stroke.points.take k ++ [q] ∧
      1 ≤ k := by
  rcases hp : stroke.points with _ | ⟨p0, rest⟩
  · rw [hp] at hpts
    simp at hpts
  · have hnle0 : ¬ progress ≤ 0 := not_le.mpr h0
    have hnge1 : ¬ 1 ≤ progress := not_le.mpr h1
    have hcl : clamp01 progress = progress := clamp01_of_mem _ h0.le h1.le
    have heq : getStrokeProgress stroke progress =
        strokeProgressLoop (calculatePathLength (p0 :: rest) * progress)
          p0 rest 0 [p0] := by
      unfold getStrokeProgress
      rw [hp]
      simp only [if_neg hnle0, if_neg hnge1, hcl]
    rw [hp] at hpos
    have htpos : (0:ℝ) < calculatePathLength (p0 :: rest) * progress :=
      mul_pos hpos h0
    have htub : calculatePathLength (p0 :: rest) * progress ≤
        0 + calculatePathLength (p0 :: rest) := by nlinarith
    constructor
    · rw [heq,
        strokeProgressLoop_pathLength _ rest p0 0 [p0] rfl
          (by simp [calculatePathLength]) htpos htub]
      ring
    · obtain ⟨k, q, hk⟩ := strokeProgressLoop_shape
        (calculatePathLength (p0 :: rest) * progress) rest p0 0 [p0] htpos htub
      refine ⟨k + 1, q, ?_, by omega⟩
      rw [heq, hk, List.take_succ_cons]
      simp

/-- Witness for C9: half of the two-point stroke `(0,0)–(2,0)`. -/
theorem getStrokeProgress_arcLength_witness :
    calculatePathLength (getStrokeProgress flatStroke (1/2)) =
      (1/2) * calculatePathLength flatStroke.points ∧
    ∃ k q, getStrokeProgress flatStroke (1/2) = flatStroke.points.take k ++ [q] ∧
      1 ≤ k :=
  getStrokeProgress_arcLength flatStroke (1/2) (by simp [flatStroke])
    (by
      have hd : (0:ℝ) < distance { x := 0, y := 0 } { x := 2, y := 0 } := by
        unfold distance
        rw [show ((2:ℝ) - 0) * (2 - 0) + (0 - 0) * (0 - 0) = 4 by norm_num]
        exact Real.sqrt_pos.mpr (by norm_num)
      simpa [flatStroke, calculatePathLength] using hd)
    (by norm_num) (by norm_num)

/-- Witness for C10 on the text `"hi there"` over `[0, 10]`. -/
theorem estimateWordTimings_partition_witness :
    estimateWordTimings "hi there" 0 10 ≠ [] ∧
    ((estimateWordTimings "hi there" 0 10).map WordTiming.startTime).head? = some 0 ∧
    List.Chain' (fun a b => b.startTime = a.endTime)
      (estimateWordTimings "hi there" 0 10) ∧
    ((estimateWordTimings "hi there" 0 10).map WordTiming.endTime).getLast? = some 10 ∧
    (estimateWordTimings "hi there" 0 10).map WordTiming.index =
      List.range (estimateWordTimings "hi there" 0 10).length :=
  estimateWordTimings_partition "hi there" 0 10 (by decide) (by norm_num)

/-- Witness for the amended C6: the partition statement instantiated at two
one-word segments `0.2` apart, which merge into a single group of two. -/
theorem mergeAdjacentSegments_group_spec_witness :
    ∃ gs : List (List NarrationSegmentConfig),
      gs.flatten = sortSegmentsByStart [mergeSegA, mergeSegB] ∧
      (∀ g ∈ gs, g ≠ []) ∧
      mergeAdjacentSegments [mergeSegA, mergeSegB] DEFAULT_MERGE_GAP_THRESHOLD =
        gs.map collapseGroup ∧
      (∀ g ∈ gs, List.Chain'
        (fun x y => y.startTime - x.endTime ≤ DEFAULT_MERGE_GAP_THRESHOLD) g) ∧
      List.Chain' (fun g1 g2 => ∀ p ∈ g1.getLast?, ∀ q ∈ g2.head?,
        DEFAULT_MERGE_GAP_THRESHOLD < q.startTime - p.endTime) gs ∧
      ∀ g ∈ gs, List.Sorted segLe g ∧
        (2 ≤ g.length →
          (collapseGroup g).text =
            " ".intercalate (g.map NarrationSegmentConfig.text) ∧
          (∀ s ∈ g, (collapseGroup g).startTime ≤ s.startTime) ∧
          (collapseGroup g).startTime ∈ g.map NarrationSegmentConfig.startTime ∧
          (g.getLast?).map NarrationSegmentConfig.endTime =
            some (collapseGroup g).endTime ∧
          (collapseGroup g).wordTimings.map WordTiming.word =
            ((g.map NarrationSegmentConfig.wordTimings).flatten).map
              WordTiming.word ∧
          (collapseGroup g).wordTimings.map WordTiming.startTime =
            ((g.map NarrationSegmentConfig.wordTimings).flatten).map
              WordTiming.startTime ∧
          (collapseGroup g).wordTimings.map WordTiming.endTime =
            ((g.map NarrationSegmentConfig.wordTimings).flatten).map
              WordTiming.endTime ∧
          (collapseGroup g).wordTimings.map WordTiming.index =
            List.range ((g.map NarrationSegmentConfig.wordTimings).flatten).length ∧
          (collapseGroup g).audioUrl =
            (g.find? fun s => s.audioUrl.isSome).bind
              NarrationSegmentConfig.audioUrl) :=
  mergeAdjacentSegments_group_spec [mergeSegA, mergeSegB]
    DEFAULT_MERGE_GAP_THRESHOLD

end ClassFlow
